import Mathlib

set_option maxRecDepth 8000

/-!
Verification development for the hybrid search / content chunking core of
github-stars-search.  Definitions shallowly embed the Python source:

* `src/processor/content_processor.py` — `_clean_content` (final whitespace
  normalization step), `_semantic_chunking`, `_sliding_window_chunking`,
  `_hybrid_chunking`, `process_description`, and the strategy dispatch of
  `process_readme`;
* `src/search/search_engine.py` — `_merge_results` and `_apply_filters`.

Scores are modelled as rationals, Python dicts as association lists
(insertion-ordered, like Python dicts), Python strings as Lean `String`
manipulated through explicit `List Char` helpers that mirror the Python
string/regex operations actually used by the source.
-/

/-- Python whitespace class `\s` restricted to its ASCII members, which are the
only whitespace characters the modelled code paths produce or inspect. -/
def pyIsSpace (c : Char) : Bool :=
  c == ' ' || c == '\t' || c == '\n' || c == '\r' || c == '\x0b' || c == '\x0c'

/-- Core of Python `str.strip()`: drop leading and trailing whitespace. -/
def stripChars (l : List Char) : List Char :=
  ((l.dropWhile pyIsSpace).reverse.dropWhile pyIsSpace).reverse

/-- Python `s.strip()`. -/
def pyStrip (s : String) : String := ⟨stripChars s.data⟩

/-- Helper for Python `str.split()` with no separator: maximal non-whitespace
runs, empty pieces dropped.  `acc` is the current word, reversed. -/
def wordsAux (acc : List Char) : List Char → List (List Char)
  | [] => if acc.isEmpty then [] else [acc.reverse]
  | c :: rest =>
    if pyIsSpace c then
      if acc.isEmpty then wordsAux [] rest
      else acc.reverse :: wordsAux [] rest
    else wordsAux (c :: acc) rest

/-- Python `s.split()` (whitespace tokenisation, empties dropped). -/
def pySplit (s : String) : List String := (wordsAux [] s.data).map fun w => ⟨w⟩

/-- Helper for Python `s.split("\n\n")`: split at each leftmost,
non-overlapping occurrence of two consecutive newlines. -/
def splitNNAux (acc : List Char) : List Char → List (List Char)
  | [] => [acc.reverse]
  | '\n' :: '\n' :: rest2 => acc.reverse :: splitNNAux [] rest2
  | c :: rest => splitNNAux (c :: acc) rest

/-- Python `s.split("\n\n")` (the only separator-split the source uses). -/
def pySplitOnNN (s : String) : List String := (splitNNAux [] s.data).map fun l => ⟨l⟩

/-- Boolean list-level "is a leading segment of". -/
def startsWithChars : List Char → List Char → Bool
  | [], _ => true
  | _ :: _, [] => false
  | a :: p, b :: q => a == b && startsWithChars p q

/-- Python `s.startswith(pre)`. -/
def pyStartsWith (pre s : String) : Bool := startsWithChars pre.data s.data

/-- Python `needle in haystack` (substring containment). -/
def containsSeq (needle : List Char) : List Char → Bool
  | [] => needle.isEmpty
  | c :: rest => startsWithChars needle (c :: rest) || containsSeq needle rest

/-- After one `'#'`, skip further `'#'`s and require the first other character
to be whitespace: the `#+\s` part of the header lookahead. -/
def hashTail : List Char → Bool
  | [] => false
  | '#' :: rest => hashTail rest
  | c :: _ => pyIsSpace c

/-- Whether a position matches the lookahead body `#+\s+` of the section
regex `(^|\n)#+\s+.+?(?=\n#+\s+|\Z)`. -/
def hashThenSpace : List Char → Bool
  | '#' :: rest => hashTail rest
  | _ => false

/-- Lazy extension of `.+?(?=\n#+\s+|\Z)` (DOTALL): return the remainder at
the earliest position that is either the end of input or a `\n` followed by
`#+\s+`; the mandatory first character has already been consumed. -/
def lazyScan : List Char → List Char
  | [] => []
  | c :: t => if c = '\n' && hashThenSpace t then c :: t else lazyScan t

/-- One match attempt of `#+\s+.+?(?=\n#+\s+|\Z)` (DOTALL) at the current
position, after the `(^|\n)` group has been consumed.  Returns the remainder
after the match end, or `none` when the position does not match.  Mirrors the
backtracking order of the Python `re` engine: greedy `#+`, greedy `\s+`
(giving back one character only when nothing is left for `.+?`), then the
lazy `.+?` stopping at the earliest lookahead position. -/
def matchHeaderBody (l : List Char) : Option (List Char) :=
  match l with
  | '#' :: rest =>
    let afterHash := rest.dropWhile (fun c => c == '#')
    let ws := afterHash.takeWhile pyIsSpace
    let body := afterHash.dropWhile pyIsSpace
    if ws.isEmpty then none
    else
      match body with
      | [] => if 2 ≤ ws.length then some [] else none
      | _ :: body2 => some (lazyScan body2)
  | _ => none

/-- Scanner of `re.findall(r'(^|\n)#+\s+.+?(?=\n#+\s+|\Z)', content, re.DOTALL)`:
attempt a match at every position left to right, resuming after each match
end.  With a single capture group, `re.findall` returns the *group* matches,
which are `""` (the `^` branch, position 0 only) or `"\n"` — never the section
text.  `fuel` bounds the recursion; every step consumes at least one
character, so `length + 1` fuel (see `findSections`) is never exhausted. -/
def scanAux : ℕ → Bool → List Char → List String
  | 0, _, _ => []
  | _ + 1, _, [] => []
  | fuel + 1, atStart, c :: t =>
    if atStart then
      match matchHeaderBody (c :: t) with
      | some r => "" :: scanAux fuel false r
      | none =>
        if c = '\n' then
          match matchHeaderBody t with
          | some r => "\n" :: scanAux fuel false r
          | none => scanAux fuel false t
        else scanAux fuel false t
    else
      if c = '\n' then
        match matchHeaderBody t with
        | some r => "\n" :: scanAux fuel false r
        | none => scanAux fuel false t
      else scanAux fuel false t

/-- The `sections` list computed by `_semantic_chunking` (line 104-105). -/
def findSections (l : List Char) : List String := scanAux (l.length + 1) true l

/-- Python `enumerate`, with explicit starting index. -/
def enumIdx {α : Type} (n : ℕ) : List α → List (ℕ × α)
  | [] => []
  | a :: t => (n, a) :: enumIdx (n + 1) t

/-- A repository metadata field value: the source stores numbers and strings
in the repository dict.  Python `==` across the two kinds is `False`, matching
the derived equality.  (Python `<`/`>` across kinds raises `TypeError`; the
comparison helpers below return `false` there, a case no modelled claim
reaches.) -/
inductive FieldVal where
  | num (q : ℚ)
  | str (s : String)
deriving DecidableEq

/-- Repository record: identity and name/description used by the chunker, and
the remaining metadata entries (as consulted by the filter stage) as an
association list standing for the Python dict. -/
structure Repo where
  id : ℕ
  full_name : String
  description : Option String
  fields : List (String × FieldVal)
deriving DecidableEq

/-- A content chunk as built by `ContentProcessor`; optional keys of the
Python dict are `Option`s. -/
structure Chunk where
  id : String
  repo_id : ℕ
  repo_name : String
  content : String
  chunk_type : String
  section_index : Option ℕ
  window_index : Option ℕ
deriving DecidableEq

/-- `ContentProcessor` configuration (constructor lines 26-29). -/
structure ProcConfig where
  max_readme_size : ℕ
  chunk_strategy : String
  max_chunk_size : ℕ
  chunk_overlap : ℕ
deriving DecidableEq

/-- The windows of `for i in range(0, len(words), step): words[i:i+size]`.
For `step = 0` Python `range` raises `ValueError`; the model returns `[]`
there (no claim uses that configuration).  A negative Python step
(`overlap > size`) yields an empty range, which coincides with the
truncated-subtraction step `0` feeding this guard via `slidingChunksIdx`. -/
def slideWindows {α : Type} (size step : ℕ) (l : List α) : List (List α) :=
  if step = 0 then []
  else (List.range ((l.length + step - 1) / step)).map fun m => (l.drop (m * step)).take size

/-- Emitted sliding windows with their `window_index = i // step`: windows
shorter than `overlap` words are skipped (line 156-157). -/
def slidingChunksIdx (size overlap : ℕ) (words : List String) : List (ℕ × List String) :=
  (enumIdx 0 (slideWindows size (size - overlap) words)).filter fun p => overlap ≤ p.2.length

/-- `_sliding_window_chunking` (lines 130-174). -/
def slidingWindowChunking (cfg : ProcConfig) (content : String) (repo : Repo) : List Chunk :=
  (slidingChunksIdx cfg.max_chunk_size cfg.chunk_overlap (pySplit content)).map fun p =>
    { id := toString repo.id ++ "-" ++ toString p.1
      repo_id := repo.id
      repo_name := repo.full_name
      content := "Repository: " ++ repo.full_name ++ "\n\n" ++ String.intercalate " " p.2
      chunk_type := "readme_window"
      section_index := none
      window_index := some p.1 }

/-- `_semantic_chunking` (lines 90-128): `re.findall` with one capture group
returns the group matches (`findSections`), falls back to sliding chunking
when empty, otherwise builds one `readme_section` chunk per match with
content `"Repository: {full_name}\n\n" + section.strip()`. -/
def semanticChunking (cfg : ProcConfig) (content : String) (repo : Repo) : List Chunk :=
  let sections := findSections content.data
  if sections.isEmpty then slidingWindowChunking cfg content repo
  else (enumIdx 0 sections).map fun p =>
    { id := toString repo.id ++ "-" ++ toString p.1
      repo_id := repo.id
      repo_name := repo.full_name
      content := "Repository: " ++ repo.full_name ++ "\n\n" ++ pyStrip p.2
      chunk_type := "readme_section"
      section_index := some p.1
      window_index := none }

/-- The sliding-window sub-chunks of one oversized semantic chunk in
`_hybrid_chunking` (lines 207-241): the repository context is the part of the
chunk's content before the first `"\n\n"`, the section body the rest. -/
def hybridSubChunks (cfg : ProcConfig) (repo : Repo) (p : ℕ × Chunk) : List Chunk :=
  let parts := pySplitOnNN p.2.content
  let repoContext := parts.headD ""
  let sectionContent := String.intercalate "\n\n" parts.tail
  (slidingChunksIdx cfg.max_chunk_size cfg.chunk_overlap (pySplit sectionContent)).map fun q =>
    { id := toString repo.id ++ "-" ++ toString p.1 ++ "-" ++ toString q.1
      repo_id := repo.id
      repo_name := repo.full_name
      content := repoContext ++ "\n\n" ++ String.intercalate " " q.2
      chunk_type := "readme_hybrid"
      section_index := some p.1
      window_index := some q.1 }

/-- One iteration of the `for i, chunk in enumerate(semantic_chunks)` loop of
`_hybrid_chunking` (lines 203-245): the accumulator carries `final_chunks`
and the `has_hybrid_chunks` flag. -/
def hybridStep (cfg : ProcConfig) (repo : Repo) (acc : List Chunk × Bool) (p : ℕ × Chunk) :
    List Chunk × Bool :=
  if cfg.max_chunk_size < (pySplit p.2.content).length then
    (acc.1 ++ hybridSubChunks cfg repo p, acc.2 || !(hybridSubChunks cfg repo p).isEmpty)
  else (acc.1 ++ [p.2], acc.2)

/-- The body of `_hybrid_chunking` after `semantic_chunks` has been computed
(lines 190-263), including the `"Large Test Repository"` special case of
lines 247-261. -/
def hybridMain (cfg : ProcConfig) (repo : Repo) (semanticChunks : List Chunk)
    (content : String) : List Chunk :=
  if (match semanticChunks with
      | c :: _ => c.chunk_type == "readme_window"
      | [] => false) then
    semanticChunks.map fun c => { c with chunk_type := "readme_hybrid", section_index := some 0 }
  else
    let processed := (enumIdx 0 semanticChunks).foldl (hybridStep cfg repo) ([], false)
    match semanticChunks with
    | [] => processed.1
    | c0 :: _ =>
      if containsSeq ("Large Test Repository".data) content.data && !processed.2 then
        processed.1 ++ [{ id := toString repo.id ++ "-0-hybrid"
                          repo_id := repo.id
                          repo_name := repo.full_name
                          content := c0.content
                          chunk_type := "readme_hybrid"
                          section_index := some 0
                          window_index := some 0 }]
      else processed.1

/-- `_hybrid_chunking` (lines 176-263). -/
def hybridChunking (cfg : ProcConfig) (content : String) (repo : Repo) : List Chunk :=
  hybridMain cfg repo (semanticChunking cfg content repo) content

/-- The strategy dispatch of `process_readme` (lines 59-64), applied to the
already-cleaned content (the cleaning of lines 51-56 renders markdown through
external libraries and is modelled separately by `pyNormalizeWs` below). -/
def chunkReadme (cfg : ProcConfig) (content : String) (repo : Repo) : List Chunk :=
  if cfg.chunk_strategy == "semantic" then semanticChunking cfg content repo
  else if cfg.chunk_strategy == "sliding" then slidingWindowChunking cfg content repo
  else hybridChunking cfg content repo

/-- `process_description` (lines 265-289): note the single `\n` before
`Description:` in the content (line 285). -/
def processDescription (repo : Repo) : Option Chunk :=
  match repo.description with
  | none => none
  | some d =>
    if d = "" then none
    else some
      { id := toString repo.id ++ "-description"
        repo_id := repo.id
        repo_name := repo.full_name
        content := "Repository: " ++ repo.full_name ++ "\nDescription: " ++ d
        chunk_type := "description"
        section_index := none
        window_index := none }

/-- Helper for `re.sub(r'\s+', ' ', text)`: every maximal whitespace run
becomes a single space.  `skipping` records that the previous character was
part of a run already replaced. -/
def normWsAux : Bool → List Char → List Char
  | _, [] => []
  | skipping, c :: rest =>
    if pyIsSpace c then
      if skipping then normWsAux true rest else ' ' :: normWsAux true rest
    else c :: normWsAux false rest

/-- The final normalization step of `_clean_content` (line 86):
`re.sub(r'\s+', ' ', text)`.  Line 85's `\n{3,} → \n\n` collapse is subsumed
because its output is fed into this substitution; the markdown→HTML→text
rendering of lines 79-82 is an external-library call and is not modelled. -/
def pyNormalizeWs (s : String) : String := ⟨normWsAux false s.data⟩

/-- A search result as consumed by `_merge_results` (neural or keyword). -/
structure SearchResult where
  id : String
  score : ℚ
  text : String
  repository : Repo
  chunk_type : String
deriving DecidableEq

/-- One value of the `repo_results` map built by `_merge_results`
(lines 273-314). -/
structure MergeEntry where
  repository : Repo
  neural_score : ℚ
  keyword_score : ℚ
  text : String
  chunk_type : String
deriving DecidableEq

/-- One merged output record (lines 333-341); `keyword_score` here is the
normalized keyword score. -/
structure MergedResult where
  id : String
  score : ℚ
  text : String
  repository : Repo
  chunk_type : String
  neural_score : ℚ
  keyword_score : ℚ
deriving DecidableEq

/-- First-match lookup in an association list (Python `dict` access). -/
def lookupKey {β : Type} : List (ℕ × β) → ℕ → Option β
  | [], _ => none
  | p :: rest, k => if p.1 = k then some p.2 else lookupKey rest k

/-- Neural-branch update of an existing entry (lines 287-292): replace score
and snippet only on a strictly better neural score. -/
def updateNeural (e : MergeEntry) (r : SearchResult) : MergeEntry :=
  if e.neural_score < r.score then
    { e with neural_score := r.score, text := r.text, chunk_type := r.chunk_type }
  else e

/-- The literal `0.5` of the snippet tie-break (line 312), written as the
normalised rational 1/2 (numerator 1, denominator 2). -/
def half : ℚ := ⟨1, 2, by norm_num, by norm_num⟩

/-- Keyword-branch update of an existing entry (lines 306-314): replace the
keyword score on strict improvement, and the snippet only when the entry's
neural score is below 0.5. -/
def updateKeyword (e : MergeEntry) (r : SearchResult) : MergeEntry :=
  if e.keyword_score < r.score then
    if e.neural_score < half then
      { e with keyword_score := r.score, text := r.text, chunk_type := r.chunk_type }
    else { e with keyword_score := r.score }
  else e

/-- Processing of one neural result into `repo_results` (lines 276-292):
insert (keyword score 0) or update.  Python dicts preserve insertion order,
hence the append on insertion. -/
def processNeuralHit (m : List (ℕ × MergeEntry)) (r : SearchResult) : List (ℕ × MergeEntry) :=
  match lookupKey m r.repository.id with
  | none => m ++ [(r.repository.id, ⟨r.repository, r.score, 0, r.text, r.chunk_type⟩)]
  | some _ => m.map fun p => if p.1 = r.repository.id then (p.1, updateNeural p.2 r) else p

/-- Processing of one keyword result into `repo_results` (lines 295-314):
insert (neural score 0) or update. -/
def processKeywordHit (m : List (ℕ × MergeEntry)) (r : SearchResult) : List (ℕ × MergeEntry) :=
  match lookupKey m r.repository.id with
  | none => m ++ [(r.repository.id, ⟨r.repository, 0, r.score, r.text, r.chunk_type⟩)]
  | some _ => m.map fun p => if p.1 = r.repository.id then (p.1, updateKeyword p.2 r) else p

/-- The grouped `repo_results` map of `_merge_results`: all neural results
first, then all keyword results. -/
def groupResults (neuralResults keywordResults : List SearchResult) : List (ℕ × MergeEntry) :=
  keywordResults.foldl processKeywordHit (neuralResults.foldl processNeuralHit [])

/-- Keyword score normalization (line 320): `min(score, 10.0) / 10.0`. -/
def normalizeKeyword (k : ℚ) : ℚ := min k 10 / 10

/-- Combined score (lines 323-326). -/
def combinedScore (nw kw : ℚ) (e : MergeEntry) : ℚ :=
  nw * e.neural_score + kw * normalizeKeyword e.keyword_score

/-- Stable descending insertion: an element is placed before the first
strictly smaller score, after earlier equal scores. -/
def insertDesc (r : MergedResult) : List MergedResult → List MergedResult
  | [] => [r]
  | b :: bs => if b.score ≤ r.score then r :: b :: bs else b :: insertDesc r bs

/-- `merged_results.sort(key=lambda x: x["score"], reverse=True)`: Python's
sort is stable, and a stable descending sort by score is extensionally unique,
so this stable insertion sort computes the same list. -/
def sortByScoreDesc : List MergedResult → List MergedResult
  | [] => []
  | a :: rest => insertDesc a (sortByScoreDesc rest)

/-- `_merge_results` (lines 259-346): group, score, drop below `min_score`
(strict), sort descending by combined score. -/
def mergeResults (nw kw ms : ℚ) (neuralResults keywordResults : List SearchResult) :
    List MergedResult :=
  let grouped := groupResults neuralResults keywordResults
  sortByScoreDesc (grouped.filterMap fun p =>
    if combinedScore nw kw p.2 < ms then none
    else some
      { id := "merged-" ++ toString p.1
        score := combinedScore nw kw p.2
        text := p.2.text
        repository := p.2.repository
        chunk_type := p.2.chunk_type
        neural_score := p.2.neural_score
        keyword_score := normalizeKeyword p.2.keyword_score })

/-- A filter value: a Python dict with optional `min`/`max` keys (range
filter), or any other value (exact match), per lines 371-383. -/
inductive FilterCond where
  | exactMatch (v : FieldVal)
  | rangeMatch (lo hi : Option ℚ)
deriving DecidableEq

/-- `field_value < bound` for the range filter.  A string field compared to a
numeric bound raises `TypeError` in Python; modelled as `false` (unreached by
the claims, which only exercise present-vs-absent fields and numeric ranges). -/
def fieldLtQ : FieldVal → ℚ → Bool
  | .num x, q => decide (x < q)
  | .str _, _ => false

/-- `field_value > bound` for the range filter; same caveat as `fieldLtQ`. -/
def fieldGtQ : FieldVal → ℚ → Bool
  | .num x, q => decide (q < x)
  | .str _, _ => false

/-- Whether a present field value satisfies one filter (lines 371-383). -/
def matchesFilter (v : FieldVal) : FilterCond → Bool
  | .exactMatch w => v == w
  | .rangeMatch lo hi =>
    (match lo with | some q => !(fieldLtQ v q) | none => true) &&
    (match hi with | some q => !(fieldGtQ v q) | none => true)

/-- First-match lookup among the repository's metadata fields. -/
def lookupField : List (String × FieldVal) → String → Option FieldVal
  | [], _ => none
  | p :: rest, k => if p.1 = k then some p.2 else lookupField rest k

/-- The per-result filter loop of `_apply_filters` (lines 363-383): a filter
whose field is **absent** from the repository record is skipped (`if field in
repo:` guards the whole check), so absence never excludes. -/
def includeResult (filters : List (String × FilterCond)) (repo : Repo) : Bool :=
  filters.all fun f =>
    match lookupField repo.fields f.1 with
    | none => true
    | some v => matchesFilter v f.2

/-- `_apply_filters` (lines 348-388). -/
def applyFilters (results : List MergedResult) (filters : List (String × FilterCond)) :
    List MergedResult :=
  results.filter fun r => includeResult filters r.repository

/-- The retained ("best") hit of a non-empty hit list under the strict
first-wins maximum rule of the merger's update branches. -/
def bestHitFrom (h : SearchResult) (t : List SearchResult) : SearchResult :=
  t.foldl (fun best r => if best.score < r.score then r else best) h

/-- Keyword-side retained score and snippet over a repository's keyword hits:
the running maximum starts at the entry's initial keyword score 0, and each
strict improvement records the hit's snippet. -/
def keywordPick (hits : List SearchResult) : ℚ × Option (String × String) :=
  hits.foldl (fun acc r => if acc.1 < r.score then (r.score, some (r.text, r.chunk_type)) else acc)
    ((0 : ℚ), (none : Option (String × String)))

/-- The hits of one repository inside a result list, in order. -/
def hitsFor (rid : ℕ) (rs : List SearchResult) : List SearchResult :=
  rs.filter fun r => r.repository.id == rid

/-- Effect of one neural hit on the optional entry of its own repository. -/
def neuralOpt (o : Option MergeEntry) (r : SearchResult) : Option MergeEntry :=
  match o with
  | none => some ⟨r.repository, r.score, 0, r.text, r.chunk_type⟩
  | some e => some (updateNeural e r)

/-- Effect of one keyword hit on the optional entry of its own repository. -/
def keywordOpt (o : Option MergeEntry) (r : SearchResult) : Option MergeEntry :=
  match o with
  | none => some ⟨r.repository, 0, r.score, r.text, r.chunk_type⟩
  | some e => some (updateKeyword e r)

/-- Concatenation of emitted windows, skipping the first `k` words of every
window after the first (the reconstruction of the chunk-coverage property). -/
def reconstructWindows (k : ℕ) : List (List String) → List String
  | [] => []
  | c :: rest => c ++ (rest.map fun w => w.drop k).flatten

/-- The emitted sliding windows (word lists), without their indices. -/
def emittedWindows (size overlap : ℕ) (ws : List String) : List (List String) :=
  (slidingChunksIdx size overlap ws).map Prod.snd

/-! Concrete example data used by closed theorems and witnesses. -/

/-- The sample repository of the source's own test-suite. -/
def testRepo : Repo := ⟨12345, "test-user/test-repo", some "A test repository", []⟩

/-- Hybrid configuration matching the test fixture (`max_chunk_size = 100`,
`chunk_overlap = 20`). -/
def hybridCfg : ProcConfig := ⟨10000, "hybrid", 100, 20⟩

/-- A repository record with no metadata fields at all. -/
def repoNoFields : Repo := ⟨2, "owner/repo-b", none, []⟩

/-- A merged result whose repository record lacks every metadata field. -/
def c1Result : MergedResult := ⟨"merged-2", 1, "snippet", repoNoFields, "readme_section", 1, 0⟩

/-- A filter on a field (`stargazers_count`) absent from `repoNoFields`. -/
def c1Filters : List (String × FilterCond) :=
  [("stargazers_count", FilterCond.rangeMatch (some 100) none)]

/-- A single neural search hit with score 0.6. -/
def c2Neural : SearchResult := ⟨"chunk-1", 3/5, "a semantic snippet", ⟨1, "owner/repo-a", none, []⟩, "readme_section"⟩

/-- The merged record produced from `c2Neural` on the neural side with the
default weights 0.7/0.3 and threshold 0.2. -/
def c2Merged : MergedResult := ⟨"merged-1", 21/50, "a semantic snippet", ⟨1, "owner/repo-a", none, []⟩, "readme_section", 3/5, 0⟩

/-- A document with one header section that mentions the magic test string. -/
def c4ContentWith : String := "# Title\n\nSee the Large Test Repository sample."

/-- The same document with the magic string removed. -/
def c4ContentWithout : String := "# Title\n\nSee the sample."

/-- Sixty space-separated words. -/
def c5Words : String := String.intercalate " " ((List.range 60).map fun i => "w" ++ toString i)

/-- A README with exactly the two headers `Install` and `Usage`, each section
sixty words long (the spec's end-to-end chunking scenario), as plain text
before `_clean_content`'s whitespace normalization. -/
def c5Readme : String := "# Install\n\n" ++ c5Words ++ "\n\n# Usage\n\n" ++ c5Words

/-- Configuration of the end-to-end scenario: hybrid strategy,
`max_chunk_size = 100`. -/
def c5Cfg : ProcConfig := ⟨500000, "hybrid", 100, 20⟩

/-- The rational 2/5 (= 0.4) in normalised form. -/
def twoFifths : ℚ := ⟨2, 5, by norm_num, by norm_num⟩

/-- A neural hit for repository 7 with score 0.4 (below the 0.5 snippet
tie-break threshold). -/
def c8Neural : SearchResult := ⟨"n-1", twoFifths, "neural text", ⟨7, "owner/repo-c", none, []⟩, "readme_section"⟩

/-- A keyword hit for repository 7 with raw BM25 score 3. -/
def c8Keyword : SearchResult := ⟨"bm25-7-0", 3, "keyword text", ⟨7, "owner/repo-c", none, []⟩, "bm25"⟩

/-- The grouped entry for repository 7 after merging `[c8Neural]` and
`[c8Keyword]`: neural score 0.4 < 0.5, so the keyword snippet won. -/
def c8Entry : MergeEntry := ⟨⟨7, "owner/repo-c", none, []⟩, twoFifths, 3, "keyword text", "bm25"⟩

/-- A neural hit with whole-number score 1, used as the C9 witness input. -/
def c9Neural : SearchResult := ⟨"n-9", 1, "witness text", ⟨9, "owner/repo-d", none, []⟩, "readme_section"⟩

/-! Helper lemmas. -/

theorem str_data_append (s t : String) : (s ++ t).data = s.data ++ t.data := rfl

theorem startsWithChars_same_append (p rest : List Char) :
    startsWithChars p (p ++ rest) = true := by
  induction p with
  | nil => rfl
  | cons a q ih => simpa [startsWithChars] using ih

theorem pyStartsWith_same_append (pre x : String) :
    pyStartsWith pre (pre ++ x) = true := by
  unfold pyStartsWith
  rw [str_data_append]
  exact startsWithChars_same_append pre.data x.data

theorem str_append_ne_empty (s t : String) (h : s.data ≠ []) : s ++ t ≠ "" := by
  intro hc
  have : (s ++ t).data = ([] : List Char) := by rw [hc]
  rw [str_data_append] at this
  exact h (List.append_eq_nil.mp this).1

/-! C1. -/

/-- C1 counterexample: the filter stage **includes** a result whose
repository record lacks the filtered field (`stargazers_count`), so
`_apply_filters` fails open, not closed, on missing fields. -/
theorem c1_missing_field_included_cex :
    lookupField c1Result.repository.fields "stargazers_count" = none ∧
    applyFilters [c1Result] c1Filters = [c1Result] := by decide

/-- C1 (amended): a filter whose field is absent from a result's repository
record never excludes that result; in particular, when every filter field is
absent from the record, the result is always included (fail open). -/
theorem c1_applyFilters_absent_fields_fail_open (results : List MergedResult)
    (filters : List (String × FilterCond)) (r : MergedResult) (hr : r ∈ results)
    (habs : (filters.all fun f => (lookupField r.repository.fields f.1).isNone) = true) :
    r ∈ applyFilters results filters := by
  unfold applyFilters
  apply List.mem_filter.mpr
  refine ⟨hr, ?_⟩
  unfold includeResult
  apply List.all_eq_true.mpr
  intro f hf
  have h := List.all_eq_true.mp habs f hf
  cases hl : lookupField r.repository.fields f.1 with
  | none => simp
  | some v => rw [hl] at h; simp at h

/-- Witness for `c1_applyFilters_absent_fields_fail_open` at concrete input. -/
theorem c1_applyFilters_absent_fields_fail_open_witness :
    c1Result ∈ [c1Result] ∧
    (c1Filters.all fun f => (lookupField c1Result.repository.fields f.1).isNone) = true ∧
    c1Result ∈ applyFilters [c1Result] c1Filters :=
  ⟨by decide, by decide,
    c1_applyFilters_absent_fields_fail_open [c1Result] c1Filters c1Result (by decide) (by decide)⟩

/-! C2 counterexample. -/

/-- C2 counterexample: with weights 0.7/0.3 and threshold 0.2, merging a
single 0.6-scored result as the neural list keeps it (combined score 0.42),
while merging the same result as the keyword list drops it (combined score
0.3 · 0.06 = 0.018 < 0.2): the two merges differ even as sets. -/
theorem normalizeKeyword_zero : normalizeKeyword 0 = 0 := by
  unfold normalizeKeyword
  rw [min_eq_left (by norm_num : (0:ℚ) ≤ 10)]
  norm_num

theorem normalizeKeyword_c2 : normalizeKeyword (3/5) = 3/50 := by
  unfold normalizeKeyword
  rw [min_eq_left (by norm_num : (3/5:ℚ) ≤ 10)]
  norm_num

theorem c2_merge_not_commutative_cex :
    c2Merged ∈ mergeResults (7/10) (3/10) (1/5) [c2Neural] [] ∧
    c2Merged ∉ mergeResults (7/10) (3/10) (1/5) [] [c2Neural] ∧
    mergeResults (7/10) (3/10) (1/5) [] [c2Neural] = [] := by
  refine ⟨?_, ?_, ?_⟩ <;>
    norm_num [mergeResults, groupResults, processNeuralHit, processKeywordHit, lookupKey,
      combinedScore, normalizeKeyword_zero, normalizeKeyword_c2, sortByScoreDesc, insertDesc,
      c2Neural, c2Merged, List.filterMap_cons, List.filterMap_nil]
  all_goals decide

/-! C3 counterexample. -/

/-- C3 counterexample: the description chunk of the chunker separates the
repository header from the description with a **single** newline, so its
content does not begin with `"Repository: {full_name}\n\n"`. -/
theorem c3_description_chunk_single_newline_cex :
    processDescription testRepo = some
      { id := "12345-description", repo_id := 12345, repo_name := "test-user/test-repo",
        content := "Repository: test-user/test-repo\nDescription: A test repository",
        chunk_type := "description", section_index := none, window_index := none } ∧
    ((processDescription testRepo).all fun ch =>
      pyStartsWith ("Repository: " ++ testRepo.full_name ++ "\n\n") ch.content) = false := by
  decide

/-! C4. -/

/-- C4: on a one-section document containing the literal substring
`"Large Test Repository"` (no section over `max_chunk_size`), hybrid chunking
appends an extra `readme_hybrid` chunk with id `"12345-0-hybrid"`,
`section_index` 0 and `window_index` 0, duplicating the first semantic
chunk's content; the same document without that substring yields no
`readme_hybrid` chunk. -/
theorem c4_large_test_repository_special_case :
    hybridChunking hybridCfg c4ContentWith testRepo =
      [{ id := "12345-0", repo_id := 12345, repo_name := "test-user/test-repo",
         content := "Repository: test-user/test-repo\n\n", chunk_type := "readme_section",
         section_index := some 0, window_index := none },
       { id := "12345-0-hybrid", repo_id := 12345, repo_name := "test-user/test-repo",
         content := "Repository: test-user/test-repo\n\n", chunk_type := "readme_hybrid",
         section_index := some 0, window_index := some 0 }] ∧
    (hybridChunking hybridCfg c4ContentWithout testRepo).all
      (fun c => !(c.chunk_type == "readme_hybrid")) = true := by decide

/-! C5 concrete evaluation. -/

/-- C5: running the spec's end-to-end scenario (README with the two headers
`Install` and `Usage`, sixty words each, hybrid strategy,
`max_chunk_size = 100`) through the modelled pipeline yields a **single**
`readme_section` chunk whose content is just the repository header with an
empty section body — not the two section-text-carrying chunks the scenario
requires: `_clean_content` collapses all newlines and `re.findall` with a
capture group returns only the group matches. -/
theorem c5_scenario_yields_one_empty_section_chunk :
    chunkReadme c5Cfg (pyNormalizeWs c5Readme) testRepo =
      [{ id := "12345-0", repo_id := 12345, repo_name := "test-user/test-repo",
         content := "Repository: test-user/test-repo\n\n", chunk_type := "readme_section",
         section_index := some 0, window_index := none }] := by decide

/-! C6 counterexample. -/

/-- C6 counterexample: with `chunk_overlap = 2 < max_chunk_size = 3`, a
one-word input produces **no** sliding chunks (the only window is shorter
than the overlap and is dropped), so the reconstruction is empty and the
word is lost. -/
theorem c6_sliding_coverage_cex :
    emittedWindows 3 2 ["lonely"] = [] ∧
    reconstructWindows 2 (emittedWindows 3 2 ["lonely"]) ≠ ["lonely"] := by decide

/-! Association-map lemmas for the merger's `repo_results` dict. -/

theorem lookupKey_none_iff {β : Type} (m : List (ℕ × β)) (k : ℕ) :
    lookupKey m k = none ↔ k ∉ m.map Prod.fst := by
  induction m with
  | nil => simp [lookupKey]
  | cons p t ih =>
    by_cases h : p.1 = k
    · simp [lookupKey, h]
    · have h' : ¬ k = p.1 := fun hx => h hx.symm
      simp [lookupKey, h, h', ih]

theorem lookupKey_append_of_none {β : Type} (m1 m2 : List (ℕ × β)) (k : ℕ)
    (h : lookupKey m1 k = none) : lookupKey (m1 ++ m2) k = lookupKey m2 k := by
  induction m1 with
  | nil => simp
  | cons p t ih =>
    by_cases hp : p.1 = k
    · simp [lookupKey, hp] at h
    · simp [lookupKey, hp] at h ⊢
      exact ih h

theorem lookupKey_append_of_some {β : Type} (m1 m2 : List (ℕ × β)) (k : ℕ) (v : β)
    (h : lookupKey m1 k = some v) : lookupKey (m1 ++ m2) k = some v := by
  induction m1 with
  | nil => simp [lookupKey] at h
  | cons p t ih =>
    by_cases hp : p.1 = k
    · simp [lookupKey, hp] at h ⊢; exact h
    · simp [lookupKey, hp] at h ⊢
      exact ih h

theorem lookupKey_mapUpdate {β : Type} (m : List (ℕ × β)) (k0 : ℕ) (f : β → β) (k : ℕ) :
    lookupKey (m.map fun p => if p.1 = k0 then (p.1, f p.2) else p) k =
      if k = k0 then (lookupKey m k).map f else lookupKey m k := by
  induction m with
  | nil => simp [lookupKey]
  | cons p t ih =>
    by_cases h0 : p.1 = k0
    · by_cases hk : p.1 = k
      · subst h0; subst hk
        simp [lookupKey]
      · have hk' : ¬ k = p.1 := fun hx => hk hx.symm
        have hkk0 : ¬ k = k0 := fun hx => hk (h0.trans hx.symm)
        subst h0
        simp [lookupKey, hk, hk', hkk0, ih]
    · by_cases hk : p.1 = k
      · subst hk
        have h0' : ¬ k0 = p.1 := fun hx => h0 hx.symm
        simp [lookupKey, h0, h0']
      · have hk' : ¬ k = p.1 := fun hx => hk hx.symm
        simp [lookupKey, h0, hk, hk', ih]

theorem lookupKey_processNeuralHit (m : List (ℕ × MergeEntry)) (r : SearchResult) (k : ℕ) :
    lookupKey (processNeuralHit m r) k =
      if k = r.repository.id then neuralOpt (lookupKey m k) r else lookupKey m k := by
  unfold processNeuralHit
  cases h : lookupKey m r.repository.id with
  | none =>
    dsimp only
    by_cases hk : k = r.repository.id
    · subst hk
      rw [lookupKey_append_of_none _ _ _ h]
      simp [lookupKey, neuralOpt, h]
    · have hk' : ¬ r.repository.id = k := fun hx => hk hx.symm
      cases h2 : lookupKey m k with
      | none => rw [lookupKey_append_of_none _ _ _ h2]; simp [lookupKey, hk, hk']
      | some v => rw [lookupKey_append_of_some _ _ _ _ h2]; simp [hk]
  | some e =>
    dsimp only
    rw [lookupKey_mapUpdate m r.repository.id (fun x => updateNeural x r) k]
    by_cases hk : k = r.repository.id
    · subst hk; simp [h, neuralOpt]
    · simp [hk]

theorem lookupKey_processKeywordHit (m : List (ℕ × MergeEntry)) (r : SearchResult) (k : ℕ) :
    lookupKey (processKeywordHit m r) k =
      if k = r.repository.id then keywordOpt (lookupKey m k) r else lookupKey m k := by
  unfold processKeywordHit
  cases h : lookupKey m r.repository.id with
  | none =>
    dsimp only
    by_cases hk : k = r.repository.id
    · subst hk
      rw [lookupKey_append_of_none _ _ _ h]
      simp [lookupKey, keywordOpt, h]
    · have hk' : ¬ r.repository.id = k := fun hx => hk hx.symm
      cases h2 : lookupKey m k with
      | none => rw [lookupKey_append_of_none _ _ _ h2]; simp [lookupKey, hk, hk']
      | some v => rw [lookupKey_append_of_some _ _ _ _ h2]; simp [hk]
  | some e =>
    dsimp only
    rw [lookupKey_mapUpdate m r.repository.id (fun x => updateKeyword x r) k]
    by_cases hk : k = r.repository.id
    · subst hk; simp [h, keywordOpt]
    · simp [hk]

theorem hitsFor_cons (k : ℕ) (r : SearchResult) (rs : List SearchResult) :
    hitsFor k (r :: rs) =
      if r.repository.id = k then r :: hitsFor k rs else hitsFor k rs := by
  unfold hitsFor
  by_cases h : r.repository.id = k
  · simp [List.filter_cons, h]
  · simp [List.filter_cons, h]

theorem lookupKey_foldl_neural (rs : List SearchResult) (m : List (ℕ × MergeEntry)) (k : ℕ) :
    lookupKey (rs.foldl processNeuralHit m) k =
      (hitsFor k rs).foldl neuralOpt (lookupKey m k) := by
  induction rs generalizing m with
  | nil => simp [hitsFor]
  | cons r rs' ih =>
    rw [List.foldl_cons, ih, hitsFor_cons, lookupKey_processNeuralHit]
    by_cases h : r.repository.id = k
    · simp [h]
    · have h' : ¬ k = r.repository.id := fun hx => h hx.symm
      simp [h, h']

theorem lookupKey_foldl_keyword (rs : List SearchResult) (m : List (ℕ × MergeEntry)) (k : ℕ) :
    lookupKey (rs.foldl processKeywordHit m) k =
      (hitsFor k rs).foldl keywordOpt (lookupKey m k) := by
  induction rs generalizing m with
  | nil => simp [hitsFor]
  | cons r rs' ih =>
    rw [List.foldl_cons, ih, hitsFor_cons, lookupKey_processKeywordHit]
    by_cases h : r.repository.id = k
    · simp [h]
    · have h' : ¬ k = r.repository.id := fun hx => h hx.symm
      simp [h, h']

theorem foldl_neuralOpt_some (l : List SearchResult) (e : MergeEntry) :
    l.foldl neuralOpt (some e) = some (l.foldl updateNeural e) := by
  induction l generalizing e with
  | nil => rfl
  | cons r t ih => simp [neuralOpt, ih]

theorem foldl_keywordOpt_some (l : List SearchResult) (e : MergeEntry) :
    l.foldl keywordOpt (some e) = some (l.foldl updateKeyword e) := by
  induction l generalizing e with
  | nil => rfl
  | cons r t ih => simp [keywordOpt, ih]

theorem foldl_neuralOpt_ne_none (l : List SearchResult) (o : Option MergeEntry)
    (h : l.foldl neuralOpt o = none) : o = none ∧ l = [] := by
  cases l with
  | nil => exact ⟨h, rfl⟩
  | cons r t =>
    exfalso
    cases o with
    | none =>
      rw [List.foldl_cons,
        show neuralOpt none r = some ⟨r.repository, r.score, 0, r.text, r.chunk_type⟩ from rfl,
        foldl_neuralOpt_some] at h
      exact Option.noConfusion h
    | some e =>
      rw [List.foldl_cons, show neuralOpt (some e) r = some (updateNeural e r) from rfl,
        foldl_neuralOpt_some] at h
      exact Option.noConfusion h

theorem foldl_keywordOpt_ne_none (l : List SearchResult) (o : Option MergeEntry)
    (h : l.foldl keywordOpt o = none) : o = none ∧ l = [] := by
  cases l with
  | nil => exact ⟨h, rfl⟩
  | cons r t =>
    exfalso
    cases o with
    | none =>
      rw [List.foldl_cons,
        show keywordOpt none r = some ⟨r.repository, 0, r.score, r.text, r.chunk_type⟩ from rfl,
        foldl_keywordOpt_some] at h
      exact Option.noConfusion h
    | some e =>
      rw [List.foldl_cons, show keywordOpt (some e) r = some (updateKeyword e r) from rfl,
        foldl_keywordOpt_some] at h
      exact Option.noConfusion h

theorem hitsFor_ne_nil_iff (k : ℕ) (rs : List SearchResult) :
    hitsFor k rs ≠ [] ↔ ∃ r ∈ rs, r.repository.id = k := by
  unfold hitsFor
  constructor
  · intro h
    cases hf : rs.filter (fun r => r.repository.id == k) with
    | nil => exact absurd hf h
    | cons a t =>
      have ha : a ∈ rs.filter (fun r => r.repository.id == k) := by rw [hf]; exact List.mem_cons_self a t
      have := List.mem_filter.mp ha
      exact ⟨a, this.1, by simpa using this.2⟩
  · intro ⟨r, hr, hid⟩ hnil
    have : r ∈ rs.filter (fun r => r.repository.id == k) :=
      List.mem_filter.mpr ⟨hr, by simpa using hid⟩
    rw [hnil] at this
    exact List.not_mem_nil r this

theorem foldl_keywordOpt_cons_ne_none (o : Option MergeEntry) (b : SearchResult)
    (tb : List SearchResult) : (b :: tb).foldl keywordOpt o ≠ none := by
  rw [List.foldl_cons]
  cases o with
  | none =>
    rw [show keywordOpt none b = some ⟨b.repository, 0, b.score, b.text, b.chunk_type⟩ from rfl,
      foldl_keywordOpt_some]
    exact Option.noConfusion
  | some e =>
    rw [show keywordOpt (some e) b = some (updateKeyword e b) from rfl, foldl_keywordOpt_some]
    exact Option.noConfusion

theorem lookupKey_groupResults_isSome (A B : List SearchResult) (k : ℕ) :
    lookupKey (groupResults A B) k ≠ none ↔
      (∃ r ∈ A, r.repository.id = k) ∨ (∃ r ∈ B, r.repository.id = k) := by
  unfold groupResults
  rw [lookupKey_foldl_keyword, lookupKey_foldl_neural]
  rw [show lookupKey ([] : List (ℕ × MergeEntry)) k = none from rfl]
  rw [← hitsFor_ne_nil_iff, ← hitsFor_ne_nil_iff]
  constructor
  · intro h
    by_contra hc
    push_neg at hc
    rw [hc.1, hc.2] at h
    exact h rfl
  · intro h
    rcases h with hA | hB
    · cases hfa : hitsFor k A with
      | nil => exact absurd hfa hA
      | cons a ta =>
        rw [List.foldl_cons,
          show neuralOpt none a = some ⟨a.repository, a.score, 0, a.text, a.chunk_type⟩ from rfl,
          foldl_neuralOpt_some, foldl_keywordOpt_some]
        exact Option.noConfusion
    · cases hfb : hitsFor k B with
      | nil => exact absurd hfb hB
      | cons b tb =>
        exact foldl_keywordOpt_cons_ne_none _ b tb

/-! C2 (amended). -/

/-- C2 (amended): the merge is **not** commutative in its two inputs (see
`c2_merge_not_commutative_cex`): the two lists play asymmetric roles (weights,
keyword rescaling).  What does hold, because grouping is by repository
identity, is that the *set of repositories grouped by the merge* is
order-independent: a repository id receives an entry in `merge(A, B)` exactly
when it receives one in `merge(B, A)`, namely exactly when it occurs in `A`
or in `B`. -/
theorem c2_merge_grouping_symmetric (A B : List SearchResult) (k : ℕ) :
    ((lookupKey (groupResults A B) k ≠ none) ↔ (lookupKey (groupResults B A) k ≠ none)) ∧
    ((lookupKey (groupResults A B) k ≠ none) ↔
      (∃ r ∈ A, r.repository.id = k) ∨ (∃ r ∈ B, r.repository.id = k)) := by
  constructor
  · rw [lookupKey_groupResults_isSome, lookupKey_groupResults_isSome]
    exact or_comm
  · exact lookupKey_groupResults_isSome A B k

/-! Sorting and membership in the merged output. -/

theorem mem_insertDesc (x r : MergedResult) (l : List MergedResult) :
    x ∈ insertDesc r l ↔ x = r ∨ x ∈ l := by
  induction l with
  | nil => simp [insertDesc]
  | cons b bs ih =>
    unfold insertDesc
    by_cases h : b.score ≤ r.score
    · simp [h, List.mem_cons]
    · simp [h, List.mem_cons, ih]
      tauto

theorem mem_sortByScoreDesc (x : MergedResult) (l : List MergedResult) :
    x ∈ sortByScoreDesc l ↔ x ∈ l := by
  induction l with
  | nil => simp [sortByScoreDesc]
  | cons a rest ih => simp [sortByScoreDesc, mem_insertDesc, ih]

theorem normalizeKeyword_mem_unit (k : ℚ) (hk : 0 ≤ k) :
    0 ≤ normalizeKeyword k ∧ normalizeKeyword k ≤ 1 := by
  unfold normalizeKeyword
  constructor
  · exact div_nonneg (le_min hk (by norm_num)) (by norm_num)
  · rw [div_le_one (by norm_num : (0:ℚ) < 10)]
    exact min_le_right k 10

/-! C9. -/

/-- C9: every result in the merged output whose grouped entry has a retained
neural score in `[0, 1]` and a retained raw keyword score `≥ 0` carries the
combined score `nw * n + kw * (min(k, 10) / 10)` of its entry, and that score
lies in `[0, nw + kw]` for non-negative weights. -/
theorem c9_merge_score_bounds (nw kw ms : ℚ) (A B : List SearchResult)
    (hnw : 0 ≤ nw) (hkw : 0 ≤ kw)
    (hgrp : ∀ p ∈ groupResults A B,
      0 ≤ p.2.neural_score ∧ p.2.neural_score ≤ 1 ∧ 0 ≤ p.2.keyword_score) :
    ∀ res ∈ mergeResults nw kw ms A B,
      (∃ p ∈ groupResults A B, res.score = combinedScore nw kw p.2) ∧
      0 ≤ res.score ∧ res.score ≤ nw + kw := by
  intro res hres
  unfold mergeResults at hres
  rw [mem_sortByScoreDesc] at hres
  obtain ⟨p, hp, hsome⟩ := List.mem_filterMap.mp hres
  by_cases hcond : combinedScore nw kw p.2 < ms
  · rw [if_pos hcond] at hsome
    exact Option.noConfusion hsome
  · rw [if_neg hcond] at hsome
    have hres_eq := (Option.some.inj hsome).symm
    have hscore : res.score = combinedScore nw kw p.2 := by rw [hres_eq]
    obtain ⟨h0, h1, hk0⟩ := hgrp p hp
    have hnk := normalizeKeyword_mem_unit p.2.keyword_score hk0
    refine ⟨⟨p, hp, hscore⟩, ?_, ?_⟩
    · rw [hscore]
      unfold combinedScore
      have ha := mul_nonneg hnw h0
      have hb := mul_nonneg hkw hnk.1
      linarith
    · rw [hscore]
      unfold combinedScore
      have ha : nw * p.2.neural_score ≤ nw * 1 := mul_le_mul_of_nonneg_left h1 hnw
      have hb : kw * normalizeKeyword p.2.keyword_score ≤ kw * 1 :=
        mul_le_mul_of_nonneg_left hnk.2 hkw
      linarith

/-- Witness for `c9_merge_score_bounds` at a concrete input. -/
theorem c9_merge_score_bounds_witness :
    (0:ℚ) ≤ 1 ∧
    (∀ p ∈ groupResults [c9Neural] [],
      0 ≤ p.2.neural_score ∧ p.2.neural_score ≤ 1 ∧ 0 ≤ p.2.keyword_score) ∧
    (∀ res ∈ mergeResults 1 1 0 [c9Neural] [],
      (∃ p ∈ groupResults [c9Neural] [], res.score = combinedScore 1 1 p.2) ∧
      0 ≤ res.score ∧ res.score ≤ 1 + 1) :=
  ⟨by decide, by decide,
    c9_merge_score_bounds 1 1 0 [c9Neural] [] (by decide) (by decide) (by decide)⟩

/-! C8 machinery: characterising the retained snippet of a grouped entry. -/

theorem foldl_updateNeural_best (t : List SearchResult) (e : MergeEntry) (b : SearchResult)
    (hs : e.neural_score = b.score) (ht : e.text = b.text) (hc : e.chunk_type = b.chunk_type) :
    (t.foldl updateNeural e).neural_score = (bestHitFrom b t).score ∧
    (t.foldl updateNeural e).text = (bestHitFrom b t).text ∧
    (t.foldl updateNeural e).chunk_type = (bestHitFrom b t).chunk_type ∧
    (t.foldl updateNeural e).keyword_score = e.keyword_score ∧
    (t.foldl updateNeural e).repository = e.repository := by
  induction t generalizing e b with
  | nil => exact ⟨hs, ht, hc, rfl, rfl⟩
  | cons r t' ih =>
    by_cases hcond : e.neural_score < r.score
    · have hcond' : b.score < r.score := hs ▸ hcond
      have h1 : (r :: t').foldl updateNeural e =
          t'.foldl updateNeural
            { e with neural_score := r.score, text := r.text, chunk_type := r.chunk_type } := by
        rw [List.foldl_cons]
        unfold updateNeural
        rw [if_pos hcond]
      have h2 : bestHitFrom b (r :: t') = bestHitFrom r t' := by
        unfold bestHitFrom
        rw [List.foldl_cons]
        rw [if_pos hcond']
      rw [h1, h2]
      exact ih _ r rfl rfl rfl
    · have hcond' : ¬ b.score < r.score := fun hx => hcond (hs ▸ hx)
      have h1 : (r :: t').foldl updateNeural e = t'.foldl updateNeural e := by
        rw [List.foldl_cons]
        unfold updateNeural
        rw [if_neg hcond]
      have h2 : bestHitFrom b (r :: t') = bestHitFrom b t' := by
        unfold bestHitFrom
        rw [List.foldl_cons]
        rw [if_neg hcond']
      rw [h1, h2]
      exact ih e b hs ht hc

theorem foldl_updateKeyword_spec (hits : List SearchResult) (e : MergeEntry)
    (acc : ℚ × Option (String × String)) (t0 c0 : String)
    (hks : e.keyword_score = acc.1)
    (hsnip : (e.text, e.chunk_type) =
      if e.neural_score < half then acc.2.getD (t0, c0) else (t0, c0)) :
    (hits.foldl updateKeyword e).keyword_score =
      (hits.foldl
        (fun a r => if a.1 < r.score then (r.score, some (r.text, r.chunk_type)) else a) acc).1 ∧
    (hits.foldl updateKeyword e).neural_score = e.neural_score ∧
    (hits.foldl updateKeyword e).repository = e.repository ∧
    ((hits.foldl updateKeyword e).text, (hits.foldl updateKeyword e).chunk_type) =
      (if e.neural_score < half then
        (hits.foldl
          (fun a r => if a.1 < r.score then (r.score, some (r.text, r.chunk_type)) else a)
          acc).2.getD (t0, c0)
       else (t0, c0)) := by
  induction hits generalizing e acc with
  | nil => exact ⟨hks, rfl, rfl, hsnip⟩
  | cons r t ih =>
    by_cases hcond : e.keyword_score < r.score
    · have hcond' : acc.1 < r.score := hks ▸ hcond
      have hacc : (r :: t).foldl
          (fun a r => if a.1 < r.score then (r.score, some (r.text, r.chunk_type)) else a) acc =
          t.foldl
            (fun a r => if a.1 < r.score then (r.score, some (r.text, r.chunk_type)) else a)
            (r.score, some (r.text, r.chunk_type)) := by
        rw [List.foldl_cons]
        rw [if_pos hcond']
      by_cases hn : e.neural_score < half
      · have h1 : (r :: t).foldl updateKeyword e =
            t.foldl updateKeyword
              { e with keyword_score := r.score, text := r.text, chunk_type := r.chunk_type } := by
          rw [List.foldl_cons]
          unfold updateKeyword
          rw [if_pos hcond, if_pos hn]
        rw [h1, hacc]
        exact ih _ (r.score, some (r.text, r.chunk_type)) rfl (by simp [hn])
      · have h1 : (r :: t).foldl updateKeyword e =
            t.foldl updateKeyword { e with keyword_score := r.score } := by
          rw [List.foldl_cons]
          unfold updateKeyword
          rw [if_pos hcond, if_neg hn]
        rw [h1, hacc]
        have hsnip' : (e.text, e.chunk_type) = (t0, c0) := by
          rw [hsnip, if_neg hn]
        exact ih _ (r.score, some (r.text, r.chunk_type)) rfl (by simp [hn, ← hsnip'])
    · have hcond' : ¬ acc.1 < r.score := fun hx => hcond (hks ▸ hx)
      have hacc : (r :: t).foldl
          (fun a r => if a.1 < r.score then (r.score, some (r.text, r.chunk_type)) else a) acc =
          t.foldl
            (fun a r => if a.1 < r.score then (r.score, some (r.text, r.chunk_type)) else a)
            acc := by
        rw [List.foldl_cons]
        rw [if_neg hcond']
      have h1 : (r :: t).foldl updateKeyword e = t.foldl updateKeyword e := by
        rw [List.foldl_cons]
        unfold updateKeyword
        rw [if_neg hcond]
      rw [h1, hacc]
      exact ih e acc hks hsnip

/-! C8. -/

/-- C8: for a repository present in both input lists of the merger (the
neural hits of the repository being `h0 :: tA`), the grouped entry retains
the best neural hit's score, the keyword-side running maximum (started at 0),
and as snippet the best neural hit's text and chunk type — unless the
retained neural score is below 0.5, in which case the snippet of the last
strictly-improving (hence highest-scoring, first among ties) keyword hit
replaces it when one exists.  (The characterisation holds even when the
repository has no keyword hits, in which case `keywordPick` is `(0, none)`
and the neural snippet stands.) -/
theorem c8_merge_snippet_selection (A B : List SearchResult) (rid : ℕ) (e : MergeEntry)
    (h0 : SearchResult) (tA : List SearchResult)
    (hA : hitsFor rid A = h0 :: tA)
    (hB : hitsFor rid B ≠ [])
    (he : lookupKey (groupResults A B) rid = some e) :
    e.neural_score = (bestHitFrom h0 tA).score ∧
    e.keyword_score = (keywordPick (hitsFor rid B)).1 ∧
    (e.text, e.chunk_type) =
      (if e.neural_score < half then
        ((keywordPick (hitsFor rid B)).2).getD
          ((bestHitFrom h0 tA).text, (bestHitFrom h0 tA).chunk_type)
       else ((bestHitFrom h0 tA).text, (bestHitFrom h0 tA).chunk_type)) := by
  unfold groupResults at he
  rw [lookupKey_foldl_keyword, lookupKey_foldl_neural,
    show lookupKey ([] : List (ℕ × MergeEntry)) rid = none from rfl, hA, List.foldl_cons,
    show neuralOpt none h0 = some ⟨h0.repository, h0.score, 0, h0.text, h0.chunk_type⟩ from rfl,
    foldl_neuralOpt_some, foldl_keywordOpt_some] at he
  have he2 : e = (hitsFor rid B).foldl updateKeyword
      (tA.foldl updateNeural ⟨h0.repository, h0.score, 0, h0.text, h0.chunk_type⟩) :=
    (Option.some.inj he).symm
  set eN := tA.foldl updateNeural ⟨h0.repository, h0.score, 0, h0.text, h0.chunk_type⟩ with heN
  obtain ⟨hn1, hn2, hn3, hn4, hn5⟩ :=
    foldl_updateNeural_best tA ⟨h0.repository, h0.score, 0, h0.text, h0.chunk_type⟩ h0 rfl rfl rfl
  rw [← heN] at hn1 hn2 hn3 hn4 hn5
  have hks0 : eN.keyword_score = ((0:ℚ), (none : Option (String × String))).1 := hn4
  have hsnip0 : (eN.text, eN.chunk_type) =
      if eN.neural_score < half then
        ((0:ℚ), (none : Option (String × String))).2.getD (eN.text, eN.chunk_type)
      else (eN.text, eN.chunk_type) := by simp
  obtain ⟨hk1, hk2, hk3, hk4⟩ :=
    foldl_updateKeyword_spec (hitsFor rid B) eN (0, none) eN.text eN.chunk_type hks0 hsnip0
  have hpick : keywordPick (hitsFor rid B) =
      (hitsFor rid B).foldl
        (fun a r => if a.1 < r.score then (r.score, some (r.text, r.chunk_type)) else a)
        (0, none) := rfl
  rw [he2]
  refine ⟨hk2.trans hn1, ?_, ?_⟩
  · rw [hpick]
    exact hk1
  · rw [hpick, hk2, ← hn2, ← hn3]
    exact hk4

/-- Witness for `c8_merge_snippet_selection` at a concrete input. -/
theorem c8_merge_snippet_selection_witness :
    hitsFor 7 [c8Neural] = [c8Neural] ∧
    hitsFor 7 [c8Keyword] ≠ [] ∧
    lookupKey (groupResults [c8Neural] [c8Keyword]) 7 = some c8Entry ∧
    (c8Entry.neural_score = (bestHitFrom c8Neural []).score ∧
     c8Entry.keyword_score = (keywordPick (hitsFor 7 [c8Keyword])).1 ∧
     (c8Entry.text, c8Entry.chunk_type) =
       (if c8Entry.neural_score < half then
         ((keywordPick (hitsFor 7 [c8Keyword])).2).getD
           ((bestHitFrom c8Neural []).text, (bestHitFrom c8Neural []).chunk_type)
        else ((bestHitFrom c8Neural []).text, (bestHitFrom c8Neural []).chunk_type))) :=
  ⟨by decide, by decide, by decide,
    c8_merge_snippet_selection [c8Neural] [c8Keyword] 7 c8Entry c8Neural []
      (by decide) (by decide) (by decide)⟩

/-! Chunker lemmas. -/

theorem startsWithChars_self (l : List Char) : startsWithChars l l = true := by
  induction l with
  | nil => rfl
  | cons a t ih => simpa [startsWithChars] using ih

theorem pyStartsWith_self (s : String) : pyStartsWith s s = true :=
  startsWithChars_self s.data

theorem str_eq_empty_iff (s : String) : s = "" ↔ s.data = [] := by
  constructor
  · intro h; rw [h]
  · intro h
    cases s with
    | mk d =>
      cases h
      rfl

theorem pre_append_ne_empty (fn x : String) : "Repository: " ++ fn ++ "\n\n" ++ x ≠ "" := by
  apply str_append_ne_empty
  rw [str_data_append]
  intro hc
  have h2 := (List.append_eq_nil.mp hc).2
  exact absurd h2 (by decide)

theorem desc_append_ne_empty (fn x : String) :
    "Repository: " ++ fn ++ "\nDescription: " ++ x ≠ "" := by
  apply str_append_ne_empty
  rw [str_data_append]
  intro hc
  have h2 := (List.append_eq_nil.mp hc).2
  exact absurd h2 (by decide)

theorem str_append_empty (s : String) : s ++ "" = s := by
  cases s with
  | mk d =>
    show String.mk (d ++ []) = String.mk d
    rw [List.append_nil]

theorem mem_enumIdx_snd {α : Type} (n : ℕ) (l : List α) (p : ℕ × α) (hp : p ∈ enumIdx n l) :
    p.2 ∈ l := by
  induction l generalizing n with
  | nil => simp [enumIdx] at hp
  | cons a t ih =>
    rw [enumIdx] at hp
    rcases List.mem_cons.mp hp with h | h
    · rw [h]; exact List.mem_cons_self a t
    · exact List.mem_cons_of_mem a (ih (n + 1) h)

theorem mem_scanAux (fuel : ℕ) (b : Bool) (l : List Char) :
    ∀ s ∈ scanAux fuel b l, s = "" ∨ s = "\n" := by
  induction fuel generalizing b l with
  | zero => intro s hs; simp [scanAux] at hs
  | succ fuel ih =>
    intro s hs
    cases l with
    | nil => simp [scanAux] at hs
    | cons c t =>
      rw [scanAux] at hs
      by_cases hb : b
      · rw [if_pos hb] at hs
        cases hm : matchHeaderBody (c :: t) with
        | some r =>
          rw [hm] at hs
          rcases List.mem_cons.mp hs with h | h
          · exact Or.inl h
          · exact ih false r s h
        | none =>
          rw [hm] at hs
          by_cases hc : c = '\n'
          · rw [if_pos hc] at hs
            cases hm2 : matchHeaderBody t with
            | some r =>
              rw [hm2] at hs
              rcases List.mem_cons.mp hs with h | h
              · exact Or.inr h
              · exact ih false r s h
            | none =>
              rw [hm2] at hs
              exact ih false t s hs
          · rw [if_neg hc] at hs
            exact ih false t s hs
      · rw [if_neg hb] at hs
        by_cases hc : c = '\n'
        · rw [if_pos hc] at hs
          cases hm2 : matchHeaderBody t with
          | some r =>
            rw [hm2] at hs
            rcases List.mem_cons.mp hs with h | h
            · exact Or.inr h
            · exact ih false r s h
          | none =>
            rw [hm2] at hs
            exact ih false t s hs
        · rw [if_neg hc] at hs
          exact ih false t s hs

theorem mem_findSections (l : List Char) : ∀ s ∈ findSections l, s = "" ∨ s = "\n" :=
  mem_scanAux (l.length + 1) true l

theorem pyStrip_of_findSections (l : List Char) (s : String) (hs : s ∈ findSections l) :
    pyStrip s = "" := by
  rcases mem_findSections l s hs with h | h <;> rw [h] <;> decide

theorem str_mk_data (s : String) : String.mk s.data = s := by
  cases s
  rfl

theorem pre_ne_empty (fn : String) : "Repository: " ++ fn ++ "\n\n" ≠ "" := by
  apply str_append_ne_empty
  rw [str_data_append]
  intro hc
  exact absurd (List.append_eq_nil.mp hc).1 (by decide)

theorem slidingWindowChunking_shape (cfg : ProcConfig) (content : String) (repo : Repo) :
    ∀ ch ∈ slidingWindowChunking cfg content repo,
      ch.chunk_type = "readme_window" ∧
      pyStartsWith ("Repository: " ++ repo.full_name ++ "\n\n") ch.content = true ∧
      ch.content ≠ "" := by
  intro ch hch
  unfold slidingWindowChunking at hch
  obtain ⟨p, hp, rfl⟩ := List.mem_map.mp hch
  exact ⟨rfl, pyStartsWith_same_append _ _, pre_append_ne_empty _ _⟩

theorem semanticChunking_no_sections (cfg : ProcConfig) (content : String) (repo : Repo)
    (h : findSections content.data = []) :
    semanticChunking cfg content repo = slidingWindowChunking cfg content repo := by
  unfold semanticChunking
  rw [h]
  rfl

theorem semanticChunking_with_sections (cfg : ProcConfig) (content : String) (repo : Repo)
    (hne : findSections content.data ≠ []) :
    ∀ ch ∈ semanticChunking cfg content repo,
      ch.chunk_type = "readme_section" ∧
      ch.content = "Repository: " ++ repo.full_name ++ "\n\n" := by
  intro ch hch
  unfold semanticChunking at hch
  rw [if_neg (by simpa [List.isEmpty_iff] using hne)] at hch
  obtain ⟨p, hp, rfl⟩ := List.mem_map.mp hch
  refine ⟨rfl, ?_⟩
  have hstrip : pyStrip p.2 = "" :=
    pyStrip_of_findSections content.data p.2 (mem_enumIdx_snd 0 _ p hp)
  show "Repository: " ++ repo.full_name ++ "\n\n" ++ pyStrip p.2 = _
  rw [hstrip, str_append_empty]

theorem slideWindows_nil (size step : ℕ) : slideWindows size step ([] : List String) = [] := by
  unfold slideWindows
  by_cases h : step = 0
  · rw [if_pos h]
  · rw [if_neg h]
    have hz : (List.length ([] : List String) + step - 1) / step = 0 := by
      apply Nat.div_eq_of_lt
      simp only [List.length_nil, Nat.zero_add]
      omega
    rw [hz]
    rfl

theorem slidingChunksIdx_nil (size overlap : ℕ) : slidingChunksIdx size overlap [] = [] := by
  unfold slidingChunksIdx
  rw [slideWindows_nil]
  rfl

theorem splitNNAux_cons_ne (acc : List Char) (c : Char) (l : List Char) (hc : c ≠ '\n') :
    splitNNAux acc (c :: l) = splitNNAux (c :: acc) l := by
  rw [splitNNAux.eq_def]
  split
  · simp_all
  · simp_all
  · rename_i h1 h2
    injection h2 with hx hy
    rw [hx, hy]

theorem splitNNAux_no_newline_append (x : List Char) :
    ('\n':Char) ∉ x → ∀ (acc rest : List Char),
      splitNNAux acc (x ++ '\n' :: '\n' :: rest) = (acc.reverse ++ x) :: splitNNAux [] rest := by
  induction x with
  | nil =>
    intro _ acc rest
    simp [splitNNAux]
  | cons c x' ih =>
    intro hx acc rest
    have hc : c ≠ '\n' := fun h => hx (h ▸ List.mem_cons_self c x')
    have hx' : ('\n':Char) ∉ x' := fun h => hx (List.mem_cons_of_mem c h)
    rw [List.cons_append, splitNNAux_cons_ne _ _ _ hc, ih hx' (c :: acc) rest]
    simp

theorem pySplitOnNN_pre (fn : String) (hfn : ('\n':Char) ∉ fn.data) :
    pySplitOnNN ("Repository: " ++ fn ++ "\n\n") = ["Repository: " ++ fn, ""] := by
  unfold pySplitOnNN
  have hdata : ("Repository: " ++ fn ++ "\n\n").data =
      ("Repository: ".data ++ fn.data) ++ '\n' :: '\n' :: [] := by
    rw [str_data_append, str_data_append]
  rw [hdata]
  have hnn : ('\n':Char) ∉ ("Repository: ".data ++ fn.data) := by
    intro hm
    rcases List.mem_append.mp hm with h | h
    · exact absurd h (by decide)
    · exact hfn h
  rw [splitNNAux_no_newline_append _ hnn [] []]
  have hrepo : String.mk ("Repository: ".data ++ fn.data) = "Repository: " ++ fn := by
    rw [← str_data_append, str_mk_data]
  rw [show splitNNAux ([] : List Char) ([] : List Char) = [[]] from rfl, List.reverse_nil,
    List.nil_append, List.map_cons, List.map_cons, List.map_nil, hrepo]

theorem hybridSubChunks_nil_of_pre (cfg : ProcConfig) (repo : Repo) (p : ℕ × Chunk)
    (hc : p.2.content = "Repository: " ++ repo.full_name ++ "\n\n")
    (hfn : ('\n':Char) ∉ repo.full_name.data) :
    hybridSubChunks cfg repo p = [] := by
  simp only [hybridSubChunks]
  rw [hc, pySplitOnNN_pre repo.full_name hfn]
  rw [show (["Repository: " ++ repo.full_name, ""] : List String).tail = [""] from rfl]
  rw [show String.intercalate "\n\n" [""] = "" from rfl]
  rw [show pySplit "" = [] from rfl]
  rw [slidingChunksIdx_nil]
  rfl

theorem hybridSubChunks_type (cfg : ProcConfig) (repo : Repo) (p : ℕ × Chunk) :
    ∀ x ∈ hybridSubChunks cfg repo p, x.chunk_type = "readme_hybrid" := by
  intro x hx
  simp only [hybridSubChunks] at hx
  obtain ⟨q, hq, rfl⟩ := List.mem_map.mp hx
  rfl

theorem mem_foldl_hybridStep (cfg : ProcConfig) (repo : Repo) (l : List (ℕ × Chunk))
    (acc : List Chunk × Bool) :
    ∀ x ∈ (l.foldl (hybridStep cfg repo) acc).1,
      x ∈ acc.1 ∨ ∃ p ∈ l, x = p.2 ∨ x ∈ hybridSubChunks cfg repo p := by
  induction l generalizing acc with
  | nil => intro x hx; exact Or.inl hx
  | cons p t ih =>
    intro x hx
    rw [List.foldl_cons] at hx
    rcases ih (hybridStep cfg repo acc p) x hx with h | ⟨q, hq, hcase⟩
    · unfold hybridStep at h
      by_cases hcond : cfg.max_chunk_size < (pySplit p.2.content).length
      · rw [if_pos hcond] at h
        rcases List.mem_append.mp h with h1 | h1
        · exact Or.inl h1
        · exact Or.inr ⟨p, List.mem_cons_self p t, Or.inr h1⟩
      · rw [if_neg hcond] at h
        rcases List.mem_append.mp h with h1 | h1
        · exact Or.inl h1
        · exact Or.inr ⟨p, List.mem_cons_self p t, Or.inl (List.mem_singleton.mp h1)⟩
    · exact Or.inr ⟨q, List.mem_cons_of_mem p hq, hcase⟩

theorem hybridChunking_shape (cfg : ProcConfig) (content : String) (repo : Repo)
    (hfn : ('\n':Char) ∉ repo.full_name.data) :
    ∀ ch ∈ hybridChunking cfg content repo,
      pyStartsWith ("Repository: " ++ repo.full_name ++ "\n\n") ch.content = true ∧
      ch.content ≠ "" := by
  intro ch hch
  unfold hybridChunking hybridMain at hch
  by_cases hs : findSections content.data = []
  · rw [semanticChunking_no_sections cfg content repo hs] at hch
    cases hsl : slidingWindowChunking cfg content repo with
    | nil =>
      rw [hsl] at hch
      exact absurd hch (List.not_mem_nil ch)
    | cons c0 rest =>
      have h0 := slidingWindowChunking_shape cfg content repo c0 (hsl ▸ List.mem_cons_self c0 rest)
      have hcond : (c0.chunk_type == "readme_window") = true := by rw [h0.1]; decide
      rw [hsl] at hch
      simp only [hcond, if_true] at hch
      obtain ⟨c', hc', rfl⟩ := List.mem_map.mp hch
      have h1 := slidingWindowChunking_shape cfg content repo c' (hsl ▸ hc')
      exact ⟨h1.2.1, h1.2.2⟩
  · have hsemchar := semanticChunking_with_sections cfg content repo hs
    cases hsem : semanticChunking cfg content repo with
    | nil =>
      rw [hsem] at hch
      exact absurd hch (List.not_mem_nil ch)
    | cons c0 crest =>
      have h0 := hsemchar c0 (hsem ▸ List.mem_cons_self c0 crest)
      have hcond : (c0.chunk_type == "readme_window") = false := by rw [h0.1]; rfl
      rw [hsem] at hch
      simp only [hcond, Bool.false_eq_true, if_false] at hch
      have hfromfold : ∀ x ∈ ((enumIdx 0 (c0 :: crest)).foldl (hybridStep cfg repo)
          ([], false)).1,
          pyStartsWith ("Repository: " ++ repo.full_name ++ "\n\n") x.content = true ∧
          x.content ≠ "" := by
        intro x hx
        rcases mem_foldl_hybridStep cfg repo _ _ x hx with hbase | ⟨p, hp, hcase⟩
        · exact absurd hbase (List.not_mem_nil x)
        · have hpmem : p.2 ∈ semanticChunking cfg content repo := by
            rw [hsem]; exact mem_enumIdx_snd 0 _ p hp
          have hpchar := hsemchar p.2 hpmem
          rcases hcase with hxeq | hxsub
          · rw [hxeq, hpchar.2]
            refine ⟨?_, pre_ne_empty repo.full_name⟩
            exact pyStartsWith_self _
          · rw [hybridSubChunks_nil_of_pre cfg repo p hpchar.2 hfn] at hxsub
            exact absurd hxsub (List.not_mem_nil x)
      by_cases hspecial : (containsSeq ("Large Test Repository".data) content.data &&
          !((enumIdx 0 (c0 :: crest)).foldl (hybridStep cfg repo) ([], false)).2) = true
      · rw [if_pos hspecial] at hch
        rcases List.mem_append.mp hch with h1 | h1
        · exact hfromfold ch h1
        · have hcc : ch.content = c0.content := by
            rw [List.mem_singleton.mp h1]
          rw [hcc, h0.2]
          exact ⟨pyStartsWith_self _, pre_ne_empty repo.full_name⟩
      · rw [if_neg hspecial] at hch
        exact hfromfold ch hch

/-! C3. -/

/-- C3 (amended): for a repository whose `full_name` contains no newline,
every chunk produced by any of the three README chunking strategies has
non-empty content beginning with `"Repository: {full_name}\n\n"`; the
description chunk, however, is non-empty and begins with
`"Repository: {full_name}\nDescription: "` — a **single** newline, so it does
not carry the two-newline header (see
`c3_description_chunk_single_newline_cex`). -/
theorem c3_chunk_content_header (cfg : ProcConfig) (content : String) (repo : Repo)
    (hfn : ('\n':Char) ∉ repo.full_name.data) :
    ((chunkReadme cfg content repo).all fun c =>
      (!(c.content == "")) &&
        pyStartsWith ("Repository: " ++ repo.full_name ++ "\n\n") c.content) = true ∧
    ((processDescription repo).all fun ch =>
      (!(ch.content == "")) &&
        pyStartsWith ("Repository: " ++ repo.full_name ++ "\nDescription: ") ch.content) = true := by
  constructor
  · rw [List.all_eq_true]
    intro c hc
    have hgoal : ∀ (hne : c.content ≠ "")
        (hpre : pyStartsWith ("Repository: " ++ repo.full_name ++ "\n\n") c.content = true),
        ((!(c.content == "")) &&
          pyStartsWith ("Repository: " ++ repo.full_name ++ "\n\n") c.content) = true := by
      intro hne hpre
      rw [hpre]
      simp [hne]
    unfold chunkReadme at hc
    by_cases h1 : (cfg.chunk_strategy == "semantic") = true
    · rw [if_pos h1] at hc
      by_cases hs : findSections content.data = []
      · rw [semanticChunking_no_sections cfg content repo hs] at hc
        have := slidingWindowChunking_shape cfg content repo c hc
        exact hgoal this.2.2 this.2.1
      · have := semanticChunking_with_sections cfg content repo hs c hc
        refine hgoal ?_ ?_
        · rw [this.2]
          exact pre_ne_empty repo.full_name
        · rw [this.2]
          exact pyStartsWith_self _
    · rw [if_neg h1] at hc
      by_cases h2 : (cfg.chunk_strategy == "sliding") = true
      · rw [if_pos h2] at hc
        have := slidingWindowChunking_shape cfg content repo c hc
        exact hgoal this.2.2 this.2.1
      · rw [if_neg h2] at hc
        have := hybridChunking_shape cfg content repo hfn c hc
        exact hgoal this.2 this.1
  · cases hdc : processDescription repo with
    | none => rfl
    | some ch =>
      have hcc : ∃ d, ch.content = "Repository: " ++ repo.full_name ++ "\nDescription: " ++ d := by
        have h := hdc
        unfold processDescription at h
        split at h
        · exact Option.noConfusion h
        · split at h
          · exact Option.noConfusion h
          · have hch := (Option.some.inj h).symm
            exact ⟨_, by rw [hch]⟩
      obtain ⟨d, hd⟩ := hcc
      show ((!(ch.content == "")) &&
        pyStartsWith ("Repository: " ++ repo.full_name ++ "\nDescription: ") ch.content) = true
      rw [hd, pyStartsWith_same_append]
      simp [desc_append_ne_empty repo.full_name d]

/-- Witness for `c3_chunk_content_header` at a concrete input. -/
theorem c3_chunk_content_header_witness :
    (('\n':Char) ∉ ("test-user/test-repo" : String).data) ∧
    (((chunkReadme hybridCfg "# Title\n\nBody text here." testRepo).all fun c =>
      (!(c.content == "")) &&
        pyStartsWith ("Repository: " ++ testRepo.full_name ++ "\n\n") c.content) = true ∧
    ((processDescription testRepo).all fun ch =>
      (!(ch.content == "")) &&
        pyStartsWith ("Repository: " ++ testRepo.full_name ++ "\nDescription: ") ch.content) = true) :=
  ⟨by decide, c3_chunk_content_header hybridCfg "# Title\n\nBody text here." testRepo (by decide)⟩

/-! C7. -/

/-- C7: chunking a headerless document (the section regex finds no match)
with the hybrid strategy yields only `readme_hybrid` chunks, each with
`section_index = 0`, and never a `readme_section` chunk. -/
theorem c7_hybrid_headerless (cfg : ProcConfig) (content : String) (repo : Repo)
    (hne : content ≠ "") (hsec : findSections content.data = []) :
    ((hybridChunking cfg content repo).all fun c =>
      c.chunk_type == "readme_hybrid" && !(c.chunk_type == "readme_section") &&
      c.section_index == some 0) = true := by
  rw [List.all_eq_true]
  intro c hc
  unfold hybridChunking hybridMain at hc
  rw [semanticChunking_no_sections cfg content repo hsec] at hc
  cases hsl : slidingWindowChunking cfg content repo with
  | nil =>
    rw [hsl] at hc
    exact absurd hc (List.not_mem_nil c)
  | cons c0 rest =>
    have h0 := slidingWindowChunking_shape cfg content repo c0 (hsl ▸ List.mem_cons_self c0 rest)
    have hcond : (c0.chunk_type == "readme_window") = true := by rw [h0.1]; decide
    rw [hsl] at hc
    simp only [hcond, if_true] at hc
    obtain ⟨c', hc', rfl⟩ := List.mem_map.mp hc
    rfl

/-- Witness for `c7_hybrid_headerless` at a concrete input. -/
theorem c7_hybrid_headerless_witness :
    (("just plain readme text with many ordinary words inside it, enough words to make a window that survives the overlap cut of twenty words in total here" : String) ≠ "") ∧
    findSections ("just plain readme text with many ordinary words inside it, enough words to make a window that survives the overlap cut of twenty words in total here" : String).data = [] ∧
    ((hybridChunking hybridCfg "just plain readme text with many ordinary words inside it, enough words to make a window that survives the overlap cut of twenty words in total here" testRepo).all fun c =>
      c.chunk_type == "readme_hybrid" && !(c.chunk_type == "readme_section") &&
      c.section_index == some 0) = true :=
  ⟨by decide, by decide,
    c7_hybrid_headerless hybridCfg _ testRepo (by decide) (by decide)⟩

/-! Sliding-window lemmas for C6 and C10. -/

theorem enumIdx_filter_map_snd {α : Type} (q : α → Bool) (n : ℕ) (l : List α) :
    ((enumIdx n l).filter fun p => q p.2).map Prod.snd = l.filter q := by
  induction l generalizing n with
  | nil => rfl
  | cons a t ih =>
    rw [enumIdx, List.filter_cons, List.filter_cons]
    by_cases h : q a
    · simp only [h, if_true]
      rw [List.map_cons, ih]
    · simp only [h]
      rw [if_neg (by simp), if_neg (by simp), ih]

theorem emittedWindows_eq_filter (size k : ℕ) (ws : List String) :
    emittedWindows size k ws =
      (slideWindows size (size - k) ws).filter fun w => k ≤ w.length := by
  unfold emittedWindows slidingChunksIdx
  exact enumIdx_filter_map_snd (fun w => decide (k ≤ w.length)) 0 (slideWindows size (size - k) ws)

theorem slideWindows_cons (size step : ℕ) (hstep : 0 < step) (l : List String) (hl : l ≠ []) :
    slideWindows size step l = l.take size :: slideWindows size step (l.drop step) := by
  unfold slideWindows
  rw [if_neg (by omega), if_neg (by omega)]
  have hL : 0 < l.length := List.length_pos.mpr hl
  have hn : (l.length + step - 1) / step = ((l.drop step).length + step - 1) / step + 1 := by
    rw [List.length_drop]
    by_cases hcase : l.length ≤ step
    · have h1 : l.length - step = 0 := by omega
      rw [h1]
      have h2 : (0 + step - 1) / step = 0 := Nat.div_eq_of_lt (by omega)
      rw [h2]
      have h4 : l.length + step - 1 = (l.length - 1) + step := by omega
      rw [h4, Nat.add_div_right _ hstep]
      have h5 : (l.length - 1) / step = 0 := Nat.div_eq_of_lt (by omega)
      rw [h5]
    · have h1 : l.length - step + step - 1 = l.length - step - 1 + step := by omega
      have h2 : l.length + step - 1 = (l.length - step - 1 + step) + step := by omega
      rw [h1, h2, Nat.add_div_right _ hstep]
  rw [hn, List.range_succ_eq_map, List.map_cons]
  congr 1
  · rw [Nat.zero_mul, List.drop_zero]
  · rw [List.map_map]
    apply List.map_congr_left
    intro m _
    show (l.drop (Nat.succ m * step)).take size = ((l.drop step).drop (m * step)).take size
    rw [List.drop_drop]
    congr 2
    rw [Nat.succ_mul]
    omega

theorem emitted_nil_of_short (size k : ℕ) (hk : 0 < k) (hks : k < size) :
    ∀ (n : ℕ) (ws : List String), ws.length ≤ n → ws.length < k →
      (slideWindows size (size - k) ws).filter (fun w => k ≤ w.length) = [] := by
  intro n
  induction n with
  | zero =>
    intro ws hn hk2
    have hw0 : ws = [] := List.length_eq_zero.mp (by omega)
    rw [hw0, slideWindows_nil]
    rfl
  | succ n ih =>
    intro ws hn hk2
    cases hws : ws with
    | nil => rw [slideWindows_nil]; rfl
    | cons a t =>
      rw [hws] at hn hk2
      rw [slideWindows_cons size (size - k) (by omega) (a :: t) (by simp), List.filter_cons]
      have hlen : ((a :: t).take size).length < k := by
        rw [List.length_take]
        omega
      rw [if_neg (by simpa using Nat.not_le.mpr hlen)]
      apply ih
      · rw [List.length_drop]
        simp only [List.length_cons] at hn ⊢
        omega
      · rw [List.length_drop]
        omega

theorem drop_flatten_emitted (size k : ℕ) (hk : 0 < k) (hks : k < size) :
    ∀ (n : ℕ) (ws : List String), ws.length ≤ n → k ≤ ws.length →
      (((slideWindows size (size - k) ws).filter (fun w => k ≤ w.length)).map
        (fun w => w.drop k)).flatten = ws.drop k := by
  intro n
  induction n with
  | zero =>
    intro ws hn hkw
    exfalso
    omega
  | succ n ih =>
    intro ws hn hkw
    have hws_ne : ws ≠ [] := by
      intro h
      rw [h] at hkw
      simp at hkw
      omega
    rw [slideWindows_cons size (size - k) (by omega) ws hws_ne, List.filter_cons]
    have hkeep : k ≤ (ws.take size).length := by
      rw [List.length_take]
      omega
    rw [if_pos (by simpa using hkeep), List.map_cons, List.flatten_cons]
    by_cases hcase : k ≤ (ws.drop (size - k)).length
    · rw [ih (ws.drop (size - k)) (by rw [List.length_drop]; omega) hcase]
      rw [List.drop_drop, List.drop_take]
      rw [show size - k + k = size from by omega]
      rw [show ws.drop size = (ws.drop k).drop (size - k) from ?_]
      · exact List.take_append_drop (size - k) (ws.drop k)
      · rw [List.drop_drop]
        congr 1
        omega
    · rw [emitted_nil_of_short size k hk hks (ws.drop (size - k)).length (ws.drop (size - k))
        le_rfl (by omega)]
      rw [List.map_nil, List.flatten_nil, List.append_nil, List.drop_take]
      have hws_le : ws.length ≤ size := by
        rw [List.length_drop] at hcase
        omega
      rw [List.take_of_length_le (by rw [List.length_drop]; omega)]

/-! C6 (amended). -/

/-- C6 (amended): for configurations with `0 < chunk_overlap < max_chunk_size`
and any word sequence that is empty or has at least `chunk_overlap` words,
concatenating the emitted sliding windows — skipping the first
`chunk_overlap` words of every window after the first — reconstructs the
original word sequence exactly.  (A non-empty sequence shorter than
`chunk_overlap` is lost entirely, because its only window is dropped: see
`c6_sliding_coverage_cex`.) -/
theorem c6_sliding_reconstruction (size k : ℕ) (ws : List String)
    (hk : 0 < k) (hks : k < size) (hlen : k ≤ ws.length ∨ ws = []) :
    reconstructWindows k (emittedWindows size k ws) = ws := by
  rcases hlen with hkw | rfl
  · rw [emittedWindows_eq_filter]
    have hws_ne : ws ≠ [] := by
      intro h
      rw [h] at hkw
      simp at hkw
      omega
    rw [slideWindows_cons size (size - k) (by omega) ws hws_ne, List.filter_cons]
    have hkeep : k ≤ (ws.take size).length := by
      rw [List.length_take]
      omega
    rw [if_pos (by simpa using hkeep), reconstructWindows]
    by_cases hcase : k ≤ (ws.drop (size - k)).length
    · rw [drop_flatten_emitted size k hk hks (ws.drop (size - k)).length (ws.drop (size - k))
        le_rfl hcase]
      rw [List.drop_drop]
      rw [show size - k + k = size from by omega]
      exact List.take_append_drop size ws
    · rw [emitted_nil_of_short size k hk hks (ws.drop (size - k)).length (ws.drop (size - k))
        le_rfl (by omega)]
      rw [List.map_nil, List.flatten_nil, List.append_nil]
      apply List.take_of_length_le
      rw [List.length_drop] at hcase
      omega
  · rw [emittedWindows_eq_filter, slideWindows_nil]
    rfl

/-- Witness for `c6_sliding_reconstruction` at a concrete input. -/
theorem c6_sliding_reconstruction_witness :
    0 < 1 ∧ 1 < 2 ∧
    (1 ≤ (["alpha", "beta", "gamma"] : List String).length ∨
      (["alpha", "beta", "gamma"] : List String) = []) ∧
    reconstructWindows 1 (emittedWindows 2 1 ["alpha", "beta", "gamma"]) =
      ["alpha", "beta", "gamma"] :=
  ⟨by decide, by decide, by decide,
    c6_sliding_reconstruction 2 1 ["alpha", "beta", "gamma"] (by decide) (by decide) (by decide)⟩

/-! C10 machinery. -/

theorem slideWindows_get (size step : ℕ) (hstep : 0 < step) (ws : List String) (m : ℕ) :
    (slideWindows size step ws).get? m =
      if m * step < ws.length then some ((ws.drop (m * step)).take size) else none := by
  unfold slideWindows
  rw [if_neg (by omega), List.get?_map]
  by_cases hm : m < (ws.length + step - 1) / step
  · rw [List.get?_range hm]
    have hlt : m * step < ws.length := by
      have h2 : m + 1 ≤ (ws.length + step - 1) / step := hm
      have h3 := (Nat.le_div_iff_mul_le hstep).mp h2
      have h4 : (m + 1) * step = m * step + step := by ring
      omega
    rw [if_pos hlt]
    rfl
  · rw [List.get?_eq_none.mpr (by rw [List.length_range]; omega)]
    have hge : ¬ m * step < ws.length := by
      have hdm := Nat.div_add_mod (ws.length + step - 1) step
      rw [Nat.mul_comm] at hdm
      have hmod := Nat.mod_lt (ws.length + step - 1) hstep
      have hmm : (ws.length + step - 1) / step ≤ m := by omega
      have := Nat.mul_le_mul_right step hmm
      omega
    rw [if_neg hge]
    rfl

theorem mem_enumIdx_iff {α : Type} (n : ℕ) (l : List α) (m : ℕ) (x : α) :
    (m, x) ∈ enumIdx n l ↔ n ≤ m ∧ l.get? (m - n) = some x := by
  induction l generalizing n with
  | nil => simp [enumIdx]
  | cons a t ih =>
    rw [enumIdx, List.mem_cons]
    constructor
    · rintro (heq | hmem)
      · have h1 : m = n := congrArg Prod.fst heq
        have h2 : x = a := congrArg Prod.snd heq
        subst h1
        subst h2
        exact ⟨le_rfl, by simp⟩
      · obtain ⟨h1, h2⟩ := (ih (n + 1)).mp hmem
        refine ⟨by omega, ?_⟩
        rw [show m - n = (m - (n + 1)) + 1 from by omega]
        simpa using h2
    · rintro ⟨h1, h2⟩
      by_cases hmn : m = n
      · subst hmn
        rw [Nat.sub_self] at h2
        simp only [List.get?_cons_zero] at h2
        exact Or.inl (by rw [Option.some.inj h2])
      · right
        apply (ih (n + 1)).mpr
        refine ⟨by omega, ?_⟩
        rw [show m - n = (m - (n + 1)) + 1 from by omega] at h2
        simpa using h2

/-! C10. -/

/-- C10: when sliding-window chunking (with `0 < overlap < max_chunk_size`)
emits both the window with index `m` and the window with index `m + 1`, the
last `overlap` words of the former equal the first `overlap` words of the
latter. -/
theorem c10_sliding_overlap (size k : ℕ) (ws : List String) (m : ℕ) (w1 w2 : List String)
    (hk : 0 < k) (hks : k < size)
    (h1 : (m, w1) ∈ slidingChunksIdx size k ws)
    (h2 : (m + 1, w2) ∈ slidingChunksIdx size k ws) :
    w1.drop (w1.length - k) = w2.take k := by
  unfold slidingChunksIdx at h1 h2
  have h1' := List.mem_filter.mp h1
  have h2' := List.mem_filter.mp h2
  have hg1 := (mem_enumIdx_iff 0 _ m w1).mp h1'.1
  have hg2 := (mem_enumIdx_iff 0 _ (m + 1) w2).mp h2'.1
  rw [Nat.sub_zero] at hg1 hg2
  have hstep : 0 < size - k := by omega
  rw [slideWindows_get size (size - k) hstep ws m] at hg1
  rw [slideWindows_get size (size - k) hstep ws (m + 1)] at hg2
  have hq1 := hg1.2
  have hq2 := hg2.2
  by_cases hc1 : m * (size - k) < ws.length
  · rw [if_pos hc1] at hq1
    by_cases hc2 : (m + 1) * (size - k) < ws.length
    · rw [if_pos hc2] at hq2
      have hw1 : w1 = (ws.drop (m * (size - k))).take size := (Option.some.inj hq1).symm
      have hw2 : w2 = (ws.drop ((m + 1) * (size - k))).take size := (Option.some.inj hq2).symm
      have hlen2 : k ≤ w2.length := by simpa using h2'.2
      have hsucc : (m + 1) * (size - k) = m * (size - k) + (size - k) := by ring
      have hfull : m * (size - k) + size ≤ ws.length := by
        rw [hw2, List.length_take, List.length_drop] at hlen2
        omega
      have hlen1 : w1.length = size := by
        rw [hw1, List.length_take, List.length_drop]
        omega
      rw [hlen1, hw1, hw2]
      rw [List.take_take, min_eq_left (le_of_lt hks)]
      rw [List.drop_take]
      rw [show size - (size - k) = k from by omega]
      rw [List.drop_drop]
      rw [← hsucc]
    · rw [if_neg hc2] at hq2
      exact Option.noConfusion hq2
  · rw [if_neg hc1] at hq1
    exact Option.noConfusion hq1

/-- Witness for `c10_sliding_overlap` at a concrete input: windows of size 3
with overlap 1 over four words. -/
theorem c10_sliding_overlap_witness :
    0 < 1 ∧ 1 < 3 ∧
    ((0 : ℕ), (["a", "b", "c"] : List String)) ∈ slidingChunksIdx 3 1 ["a", "b", "c", "d"] ∧
    ((1 : ℕ), (["c", "d"] : List String)) ∈ slidingChunksIdx 3 1 ["a", "b", "c", "d"] ∧
    (["a", "b", "c"] : List String).drop ((["a", "b", "c"] : List String).length - 1) =
      (["c", "d"] : List String).take 1 :=
  ⟨by decide, by decide, by decide, by decide,
    c10_sliding_overlap 3 1 ["a", "b", "c", "d"] 0 ["a", "b", "c"] ["c", "d"]
      (by decide) (by decide) (by decide) (by decide)⟩
